import Mathlib

/-!
# Verification of the transcript pipeline of a YouTube-transcript browser extension

This file gives a shallow embedding, in Lean 4, of the algorithmic core of the
extension: the cue chunker (`chunkTranscript`), the timestamp formatter
(`formatTimestamp`), the proof-of-origin query-flag stripper used by the cue
fetcher, the exact / semantic / hybrid retrieval layer (`exactSearch`,
`semanticSearch`, `hybridSearch` and the SEARCH_REQUEST handler), the
TextTiling-style segmenter (`timeBasedGrouping`, `semanticGrouping`,
`groupIntoBlocks`) and the step budget of the agentic chat loop.

Modelling conventions:
* JavaScript strings are modelled as `List Char` (`Str`); JavaScript numbers
  as `ℚ`.  `Math.sqrt` is modelled by the rational approximation `sqrtQ`,
  which is exact at the arguments the verified properties depend on
  (`sqrtQ x = 0 ↔` the radicand of a sum of squares is `0`).
* `Array.prototype.sort` is stable (ECMA-262); it is modelled by the stable
  insertion sort `jsSort`.  For a comparator inducing a total preorder the
  output of any stable sort is uniquely determined, so this is faithful.
* Asynchronous collaborator calls (the embedding provider) are modelled by
  passing the produced vector as an explicit argument.
-/

/-- JavaScript strings, modelled as lists of characters. -/
abbrev Str := List Char

/-- Whitespace test used by `trim`, `split(/\s+/)` and friends. -/
def isWsChar (c : Char) : Bool := c.isWhitespace

/-- Model of `String.prototype.toLowerCase`. -/
def lowerStr (s : Str) : Str := s.map Char.toLower

/-- Model of `String.prototype.trim`: drop leading and trailing whitespace. -/
def trimStr (s : Str) : Str :=
  ((s.dropWhile isWsChar).reverse.dropWhile isWsChar).reverse

/-- Helper for `splitWords`: accumulates the current word (reversed) while
scanning; whitespace flushes the word. -/
def wordsAux : Str → Str → List Str
  | [], acc => if acc = [] then [] else [acc.reverse]
  | c :: cs, acc =>
      if isWsChar c then
        if acc = [] then wordsAux cs [] else acc.reverse :: wordsAux cs []
      else wordsAux cs (c :: acc)

/-- Model of `text.split(/\s+/).filter(Boolean)`: the non-empty
whitespace-separated tokens of a string. -/
def splitWords (s : Str) : List Str := wordsAux s []

/-- Does `needle` occur at the start of `hay`? (helper for `occursIn`). -/
def leadsWith : Str → Str → Bool
  | [], _ => true
  | _ :: _, [] => false
  | a :: as, b :: bs => a = b && leadsWith as bs

/-- Model of `String.prototype.includes`: substring occurrence. -/
def occursIn (needle : Str) : Str → Bool
  | [] => leadsWith needle []
  | c :: cs => leadsWith needle (c :: cs) || occursIn needle cs

/-- Split a string at the first occurrence of `sep`; `none` if absent. -/
def splitFirst (sep : Char) : Str → Str × Option Str
  | [] => ([], none)
  | c :: cs =>
      if c = sep then ([], some cs)
      else
        let r := splitFirst sep cs
        (c :: r.1, r.2)

/-- Helper for `splitAll`: accumulates the current piece (reversed). -/
def splitAllAux (sep : Char) : Str → Str → List Str
  | [], acc => [acc.reverse]
  | c :: cs, acc =>
      if c = sep then acc.reverse :: splitAllAux sep cs []
      else splitAllAux sep cs (c :: acc)

/-- Model of `String.prototype.split(sep)` for a one-character separator. -/
def splitAll (sep : Char) (s : Str) : List Str := splitAllAux sep s []

/-- Join pieces with a one-character separator (model of `Array.join`). -/
def joinSep (sep : Char) : List Str → Str
  | [] => []
  | [p] => p
  | p :: q :: rest => p ++ sep :: joinSep sep (q :: rest)

/-- Model of `Math.sqrt` on rationals: `Nat.sqrt` on numerator and
denominator.  An approximation of the real square root that is exact where
the verified properties depend on it: it is `0` exactly at `0` and positive
on every positive rational (the source only takes square roots of sums of
squares, which are non-negative). -/
def sqrtQ (q : ℚ) : ℚ := (Nat.sqrt q.num.toNat : ℚ) / (Nat.sqrt q.den : ℚ)

/-- Stable insertion of `a` into `l`, keeping `a` after every `b` with
`le b a` (matching the placement a stable sort gives a later-arriving
element). -/
def insertOrd (le : α → α → Bool) (a : α) : List α → List α
  | [] => [a]
  | b :: bs => if le b a then b :: insertOrd le a bs else a :: b :: bs

/-- Model of `Array.prototype.sort` (stable, ECMA-262): stable insertion
sort.  `le a b = true` means the comparator returns `≤ 0` on `(a, b)`, i.e.
`a` may be placed before `b`. -/
def jsSort (le : α → α → Bool) (l : List α) : List α :=
  l.foldl (fun acc a => insertOrd le a acc) []

-- ---------------------------------------------------------------------------
-- Data model (src/types): transcript segments, embedded segments, results
-- ---------------------------------------------------------------------------

/-- Model of `TranscriptSegment` in `src/types`: one cue / chunk of transcript text. -/
structure TranscriptSegment where
  text : Str
  start : ℚ
  duration : ℚ
deriving DecidableEq

/-- Model of `EmbeddedSegment` in `src/types`: a chunk plus its embedding vector and
its stable position `index` in the chunk sequence. -/
structure EmbeddedSegment where
  text : Str
  start : ℚ
  duration : ℚ
  embedding : List ℚ
  index : Nat
deriving DecidableEq

/-- Fallback segment used to model JavaScript out-of-bounds array access. -/
def defaultSeg : EmbeddedSegment := ⟨[], 0, 0, [], 0⟩

/-- The `matchType` field of a search result. -/
inductive MatchType where
  | exact
  | semantic
deriving DecidableEq

/-- Model of `SearchResult` in `src/types`. -/
structure SearchResult where
  segment : EmbeddedSegment
  index : Nat
  score : ℚ
  matchType : MatchType
deriving DecidableEq

-- ---------------------------------------------------------------------------
-- src/lib/transcript.ts : chunker, timestamp formatter, locator sanitizer
-- ---------------------------------------------------------------------------

/-- Loop body of `chunkTranscript` (src/lib/transcript.ts).  State:
remaining cues, the running text buffer, the buffer's start and duration.
A buffer whose word count has reached `targetWords` is closed as a chunk
when the next cue arrives; the trailing buffer is flushed if non-blank. -/
def chunkLoop (targetWords : Nat) :
    List TranscriptSegment → Str → ℚ → ℚ → List TranscriptSegment
  | [], curText, curStart, curDur =>
      if trimStr curText ≠ [] then [⟨trimStr curText, curStart, curDur⟩] else []
  | seg :: rest, curText, curStart, curDur =>
      let words := (splitWords curText).length
      if targetWords ≤ words ∧ curText ≠ [] then
        ⟨trimStr curText, curStart, curDur⟩ ::
          chunkLoop targetWords rest seg.text seg.start seg.duration
      else
        let curStart' := if curText = [] then seg.start else curStart
        let curText' := if curText = [] then seg.text else curText ++ ' ' :: seg.text
        chunkLoop targetWords rest curText' curStart'
          (seg.start + seg.duration - curStart')

/-- Model of `chunkTranscript` (src/lib/transcript.ts): merge short cues into larger
chunks of about `targetWords` words (default 80 at the call sites). -/
def chunkTranscript (segments : List TranscriptSegment) (targetWords : Nat) :
    List TranscriptSegment :=
  chunkLoop targetWords segments [] 0 0

/-- Decimal digits of a natural number (model of JS `String(n)` for `n ≥ 0`). -/
def natDigits (n : Nat) : Str := Nat.toDigits 10 n

/-- Model of `String(n).padStart(2, "0")` for a non-negative integer. -/
def pad2 (n : Nat) : Str :=
  let d := natDigits n
  if d.length < 2 then '0' :: d else d

/-- Model of `formatTimestamp` (src/lib/transcript.ts): `M:SS` below one hour,
`H:MM:SS` at one hour or more.  `Math.floor` / `%` on non-negative numbers
are modelled with the rational floor. -/
def formatTimestamp (seconds : ℚ) : Str :=
  let h : ℤ := ⌊seconds / 3600⌋
  let m : ℤ := ⌊(seconds - 3600 * (h : ℚ)) / 60⌋
  let s : ℤ := ⌊seconds - 3600 * (h : ℚ) - 60 * (m : ℚ)⌋
  if 0 < h then
    natDigits h.toNat ++ ':' :: pad2 m.toNat ++ ':' :: pad2 s.toNat
  else
    natDigits m.toNat ++ ':' :: pad2 s.toNat

/-- Parse a query string into its name/value pairs: split on `&`, skip empty
pieces, split each piece at the first `=` (missing value becomes the empty
string).  Model of the WHATWG `application/x-www-form-urlencoded` parser
backing `URLSearchParams` (percent-encoding normalization omitted; it is
idempotent and orthogonal to the verified property). -/
def parseQuery (q : Str) : List (Str × Str) :=
  ((splitAll '&' q).filter (fun p => p ≠ [])).map fun p =>
    let r := splitFirst '=' p
    (r.1, r.2.getD [])

/-- Serialize name/value pairs back to a query string (WHATWG serializer:
always `name=value`, joined by `&`). -/
def serializeQuery (ps : List (Str × Str)) : Str :=
  joinSep '&' (ps.map fun p => p.1 ++ '=' :: p.2)

/-- The `cleanBase` computation of `fetchTranscriptData`
(src/lib/transcript.ts): parse the locator, delete every query parameter
named `exp` (the proof-of-origin gating flag), re-serialize.  A locator
without a query part is returned unchanged; when deletion empties the
parameter list the `?` is dropped (WHATWG: an empty list sets the query to
null). -/
def stripExp (url : Str) : Str :=
  match splitFirst '?' url with
  | (_, none) => url
  | (base, some q) =>
      let ps := (parseQuery q).filter (fun p => p.1 ≠ ('e' :: 'x' :: 'p' :: []))
      if ps = [] then base else base ++ '?' :: serializeQuery ps

-- ---------------------------------------------------------------------------
-- src/lib/embeddings.ts : cosineSimilarity, embedSegments, semanticSearch
-- ---------------------------------------------------------------------------

/-- The accumulation loop of `cosineSimilarity` (src/lib/embeddings.ts):
running `(dot, normA, normB)` sums over the paired entries. -/
def simSums : List ℚ → List ℚ → ℚ × ℚ × ℚ
  | x :: xs, y :: ys =>
      let r := simSums xs ys
      (r.1 + x * y, r.2.1 + x * x, r.2.2 + y * y)
  | _, _ => (0, 0, 0)

/-- Model of `cosineSimilarity` (src/lib/embeddings.ts).  Note: unlike the
segmenter's `cosine`, it does NOT guard a zero denominator. -/
def cosineSimilarity (a b : List ℚ) : ℚ :=
  let r := simSums a b
  r.1 / (sqrtQ r.2.1 * sqrtQ r.2.2)

/-- Model of `embedSegments` (src/lib/embeddings.ts), with the embedding provider
modelled as the function `embed`: each segment is embedded and tagged with
its position `index`. -/
def embedSegments (embed : Str → List ℚ) (segments : List TranscriptSegment) :
    List EmbeddedSegment :=
  segments.enum.map fun p =>
    ⟨p.2.text, p.2.start, p.2.duration, embed p.2.text, p.1⟩

/-- Comparator `(a, b) => b.score - a.score` of `semanticSearch`, as the
relation "a may precede b" (comparator value `≤ 0`). -/
def scoreDescLe (a b : EmbeddedSegment × ℚ) : Bool := decide (b.2 ≤ a.2)

/-- Model of `semanticSearch` (src/lib/embeddings.ts): score every segment against
the query embedding, sort by descending score, keep the top `topK`. -/
def semanticSearch (query : List ℚ) (segments : List EmbeddedSegment)
    (topK : Nat) : List (EmbeddedSegment × ℚ) :=
  let scored := segments.map fun seg => (seg, cosineSimilarity query seg.embedding)
  (jsSort scoreDescLe scored).take topK

-- ---------------------------------------------------------------------------
-- src/lib/search.ts : exactSearch, hybridSearch
-- ---------------------------------------------------------------------------

/-- Model of `exactSearch` (src/lib/search.ts): case-insensitive substring scan;
every matching segment is returned with its position, score 1, matchType
"exact", in original order. -/
def exactSearch (query : Str) (segments : List EmbeddedSegment) :
    List SearchResult :=
  if trimStr query = [] then []
  else
    let q := trimStr (lowerStr query)
    segments.enum.filterMap fun p =>
      if occursIn q (lowerStr p.2.text) then
        some ⟨p.2, p.1, 1, MatchType.exact⟩
      else none

/-- The merge comparator of `hybridSearch`, as the relation "a may precede
b": exact matches strictly first, ties broken by descending score. -/
def hybridLe (a b : SearchResult) : Bool :=
  if a.matchType = MatchType.exact ∧ b.matchType ≠ MatchType.exact then true
  else if b.matchType = MatchType.exact ∧ a.matchType ≠ MatchType.exact then false
  else decide (b.score ≤ a.score)

/-- The semantic-append loop of `hybridSearch`: keep a semantic candidate
when its stored index is not already an exact match and its score exceeds
0.3 (the `&&` short-circuits as in JavaScript). -/
def semanticFiltered (exactIndices : List Nat)
    (semantic : List (EmbeddedSegment × ℚ)) : List SearchResult :=
  semantic.filterMap fun p =>
    if !(exactIndices.contains p.1.index) && decide ((3 : ℚ)/10 < p.2) then
      some ⟨p.1, p.1.index, p.2, MatchType.semantic⟩
    else none

/-- Model of `hybridSearch` (src/lib/search.ts).  The query embedding produced by
the external `embedText` collaborator is passed explicitly.  Exact matches
are collected with their position set, semantic candidates from the top-K
are appended when their stored index is not already an exact match and the
score exceeds 0.3, and the merged list is sorted exact-first. -/
def hybridSearch (queryEmbedding : List ℚ) (query : Str)
    (segments : List EmbeddedSegment) (topK : Nat) : List SearchResult :=
  if trimStr query = [] then []
  else
    let exact := exactSearch query segments
    let exactIndices := exact.map (fun r => r.index)
    let semantic := semanticSearch queryEmbedding segments topK
    jsSort hybridLe (exact ++ semanticFiltered exactIndices semantic)

-- ---------------------------------------------------------------------------
-- src/content/index.tsx : the SEARCH_REQUEST handler behind search_transcript
-- ---------------------------------------------------------------------------

/-- The result list the SEARCH_REQUEST listener (src/content/index.tsx)
formats: `hybridSearch(query, segments, 15)` when any segment carries an
embedding, otherwise `exactSearch(query, segments).slice(0, 15)`. -/
def searchRequestResults (query : Str) (queryEmbedding : List ℚ)
    (segments : List EmbeddedSegment) : List SearchResult :=
  if segments.any (fun s => 0 < s.embedding.length) then
    hybridSearch queryEmbedding query segments 15
  else
    (exactSearch query segments).take 15

/-- One formatted line of `formatResults`: `[MM:SS] chunk text` (or
`[H:MM:SS]` at one hour or more). -/
def resultLine (r : SearchResult) : Str :=
  '[' :: formatTimestamp r.segment.start ++ ']' :: ' ' :: r.segment.text

/-- The lines of the SEARCH_REQUEST response, before joining with `"\n"`. -/
def searchToolLines (query : Str) (queryEmbedding : List ℚ)
    (segments : List EmbeddedSegment) : List Str :=
  (searchRequestResults query queryEmbedding segments).map resultLine

/-- Model of `formatResults` in the SEARCH_REQUEST listener: the formatted lines
joined by newlines, or a sentinel when nothing matched. -/
def formatResults (results : List SearchResult) : Str :=
  if results = [] then "No matching segments found.".toList
  else joinSep '\n' (results.map resultLine)

-- ---------------------------------------------------------------------------
-- TimelineTab segmentation helpers (the segmenter component file)
-- ---------------------------------------------------------------------------

/-- Constant `MIN_SECS` — never split more finely than this. -/
def MIN_SECS : ℚ := 90

/-- Constant `TARGET_SECS` — target seconds per block. -/
def TARGET_SECS : ℚ := 150

/-- Constant `MAX_BLOCKS`. -/
def MAX_BLOCKS : Nat := 25

/-- Constant `WINDOW` — segments averaged on each side of a candidate boundary. -/
def WINDOW : Nat := 3

/-- Model of the segmenter's `dot`: sum of pairwise products. -/
def dot : List ℚ → List ℚ → ℚ
  | x :: xs, y :: ys => x * y + dot xs ys
  | _, _ => 0

/-- Model of the segmenter's `cosine`: guarded cosine similarity, clamped to
`[-1, 1]`, returning 1 when the denominator is 0. -/
def cosine (a b : List ℚ) : ℚ :=
  let d := sqrtQ (dot a a) * sqrtQ (dot b b)
  if d = 0 then 1 else max (-1) (min 1 (dot a b / d))

/-- Model of the segmenter's `avgVec`: componentwise average (empty input or empty
first vector gives `[]`).  Vectors are assumed equal-dimensional, as
produced by the embedding provider. -/
def avgVec (vecs : List (List ℚ)) : List ℚ :=
  match vecs with
  | [] => []
  | v0 :: _ =>
      if v0 = [] then []
      else
        let out := vecs.foldl (fun acc v => acc.zipWith (· + ·) v)
          (List.replicate v0.length (0 : ℚ))
        out.map fun x => x / (vecs.length : ℚ)

/-- Model of `TimelineBlock` in the segmenter component. -/
structure TimelineBlock where
  startTime : ℚ
  endTime : ℚ
  title : Option Str
  segments : List EmbeddedSegment
deriving DecidableEq

/-- The value `last.start + (last.duration || 0)` over a block's segment list
(`x || 0` is the identity on numbers except `NaN`, which the rational
model excludes). -/
def blockEnd (segs : List EmbeddedSegment) : ℚ :=
  match segs.getLast? with
  | some l => l.start + l.duration
  | none => 0

/-- Loop of `timeBasedGrouping`: accumulate segments, cutting a block as
soon as the accumulated time span reaches `TARGET_SECS`; flush the
non-empty trailing buffer. -/
def timeBasedLoop : List EmbeddedSegment → List EmbeddedSegment → ℚ →
    List TimelineBlock
  | [], blockSegs, startTime =>
      if blockSegs ≠ [] then [⟨startTime, blockEnd blockSegs, none, blockSegs⟩]
      else []
  | seg :: rest, blockSegs, startTime =>
      let blockSegs' := blockSegs ++ [seg]
      if TARGET_SECS ≤ seg.start - startTime then
        ⟨startTime, blockEnd blockSegs', none, blockSegs'⟩ ::
          timeBasedLoop rest [] (seg.start + seg.duration)
      else
        timeBasedLoop rest blockSegs' startTime

/-- Model of `timeBasedGrouping`: time-based fallback, cutting every `TARGET_SECS`.
-/
def timeBasedGrouping (segs : List EmbeddedSegment) : List TimelineBlock :=
  match segs with
  | [] => []
  | s0 :: _ => timeBasedLoop segs [] s0.start

/-- The `totalDuration` of `semanticGrouping`:
`segs[n-1].start + (segs[n-1].duration || 0)`. -/
def totalDur (segs : List EmbeddedSegment) : ℚ := blockEnd segs

/-- The `targetCount` of `semanticGrouping`:
`min(MAX_BLOCKS, max(2, Math.round(totalDuration / TARGET_SECS)))`,
with `Math.round` modelled as `⌊x + 1/2⌋` (round half up). -/
def targetCount (segs : List EmbeddedSegment) : Nat :=
  min MAX_BLOCKS (max 2 (⌊totalDur segs / TARGET_SECS + 1/2⌋.toNat))

/-- Step 1 of `semanticGrouping`: the similarity score at every interior
position `i ∈ [WINDOW, n - WINDOW)`:
cosine of the window averages on either side of `i`. -/
def simScores (segs : List EmbeddedSegment) : List (Nat × ℚ) :=
  (List.range' WINDOW (segs.length - 2 * WINDOW)).map fun i =>
    (i, cosine
      (avgVec (((segs.drop (i - WINDOW)).take WINDOW).map (fun s => s.embedding)))
      (avgVec (((segs.drop i).take WINDOW).map (fun s => s.embedding))))

/-- Helper for `localMinima`: walk the score curve carrying the previous
score (`arr[j-1]?.score ?? 1`; the score after the last entry is also 1). -/
def localMinimaAux : ℚ → List (Nat × ℚ) → List (Nat × ℚ)
  | _, [] => []
  | prev, p :: rest =>
      let next : ℚ := match rest with | [] => 1 | q :: _ => q.2
      if p.2 < prev ∧ p.2 < next then p :: localMinimaAux p.2 rest
      else localMinimaAux p.2 rest

/-- Step 2 of `semanticGrouping`: the strict local minima of the score
curve (out-of-range neighbours count as score 1). -/
def localMinima (sims : List (Nat × ℚ)) : List (Nat × ℚ) :=
  localMinimaAux 1 sims

/-- Comparator `(a, b) => a.score - b.score` (ascending score), as the
relation "a may precede b". -/
def scoreAscLe (a b : Nat × ℚ) : Bool := decide (a.2 ≤ b.2)

/-- The timestamp of a candidate boundary index: `segs[idx].start`. -/
def segStart (segs : List EmbeddedSegment) (i : Nat) : ℚ :=
  (segs.getD i defaultSeg).start

/-- Step 4 of `semanticGrouping`: greedily accept minima as boundaries.
A candidate is skipped when its timestamp is within `MIN_SECS` of the video
start, the video end, or an already accepted boundary; the loop stops once
`targetCount - 1` boundaries are accepted. -/
def pickLoop (segs : List EmbeddedSegment) (totalDuration : ℚ) (tc : Nat) :
    List (Nat × ℚ) → List Nat → List Nat
  | [], chosen => chosen
  | m :: rest, chosen =>
      if tc - 1 ≤ chosen.length then chosen
      else
        let t := segStart segs m.1
        if t < MIN_SECS then pickLoop segs totalDuration tc rest chosen
        else if totalDuration - t < MIN_SECS then
          pickLoop segs totalDuration tc rest chosen
        else if chosen.any (fun c => |segStart segs c - t| < MIN_SECS) then
          pickLoop segs totalDuration tc rest chosen
        else pickLoop segs totalDuration tc rest (chosen ++ [m.1])

/-- The accepted topic boundaries of `semanticGrouping` (steps 1–4 plus the
final ascending re-sort of step 5). -/
def chosenBoundaries (segs : List EmbeddedSegment) : List Nat :=
  jsSort (fun a b => decide (a ≤ b))
    (pickLoop segs (totalDur segs) (targetCount segs)
      (jsSort scoreAscLe (localMinima (simScores segs))) [])

/-- Step 5 of `semanticGrouping`: cut `segs` at the accepted boundaries. -/
def cutBlocks (segs : List EmbeddedSegment) (chosen : List Nat) :
    List TimelineBlock :=
  let cuts := 0 :: chosen ++ [segs.length]
  (cuts.zip (chosen ++ [segs.length])).map fun c =>
    let blockSegs := (segs.drop c.1).take (c.2 - c.1)
    ⟨(blockSegs.headD defaultSeg).start, blockEnd blockSegs, none, blockSegs⟩

/-- Model of `semanticGrouping`: TextTiling-style semantic segmentation; falls back
to `timeBasedGrouping` when there are fewer than `2 * WINDOW + 2` segments.
-/
def semanticGrouping (segs : List EmbeddedSegment) : List TimelineBlock :=
  if segs.length < WINDOW * 2 + 2 then timeBasedGrouping segs
  else cutBlocks segs (chosenBoundaries segs)

/-- The segmentation method tag of `groupIntoBlocks`. -/
inductive SegMethod where
  | semantic
  | time
deriving DecidableEq

/-- Model of `groupIntoBlocks`: semantic grouping when the first segment carries an
embedding, time-based grouping otherwise; empty input gives no blocks. -/
def groupIntoBlocks (segs : List EmbeddedSegment) :
    List TimelineBlock × SegMethod :=
  match segs with
  | [] => ([], SegMethod.time)
  | s0 :: _ =>
      if 0 < s0.embedding.length then (semanticGrouping segs, SegMethod.semantic)
      else (timeBasedGrouping segs, SegMethod.time)

-- ---------------------------------------------------------------------------
-- src/background/index.ts : the agentic chat loop's step budget
-- ---------------------------------------------------------------------------

/-- One model step of a chat turn: a `search_transcript` tool invocation or
a final free-text answer. -/
inductive ChatStep where
  | toolCall (query : Str)
  | finalText
deriving DecidableEq

/-- Is this step a tool invocation? -/
def isToolCall : ChatStep → Bool
  | ChatStep.toolCall _ => true
  | ChatStep.finalText => false

/-- The number of `search_transcript` tool invocations among a turn's steps. -/
def countToolCalls : List ChatStep → Nat
  | [] => 0
  | s :: rest => (if isToolCall s then 1 else 0) + countToolCalls rest

/-- Modelled from the spec: the multi-step loop of the AI SDK `streamText`
call in `handleChatStream` (src/background/index.ts) — the loop itself
lives in the external "ai" package, not in this repository.  Per the spec
and the source comment, `maxSteps` bounds the number of model steps; each
step the model either requests the `search_transcript` tool (`policy i =
some query`) and the loop continues, or answers with free text and the
turn ends; the last permitted step is a text-only response.  `fuel` is the
number of steps still allowed, `i` the 0-based step counter. -/
def chatTurnAux (policy : Nat → Option Str) : Nat → Nat → List ChatStep
  | 0, _ => []
  | fuel + 1, i =>
      match policy i with
      | some q =>
          if fuel = 0 then [ChatStep.finalText]
          else ChatStep.toolCall q :: chatTurnAux policy fuel (i + 1)
      | none => [ChatStep.finalText]

/-- Modelled from the spec: the steps of one conversational turn of
`handleChatStream`, which configures the loop with `maxSteps: 4`
("up to 3 tool calls + 1 final text step"). -/
def handleChatStreamSteps (policy : Nat → Option Str) : List ChatStep :=
  chatTurnAux policy 4 0

/-- A segment list is well-indexed when each segment's stored `index` equals
its position — the invariant `embedSegments` establishes. -/
def wellIndexed (segs : List EmbeddedSegment) : Prop :=
  segs.map (fun s => s.index) = List.range segs.length

instance (segs : List EmbeddedSegment) : Decidable (wellIndexed segs) := by
  unfold wellIndexed; infer_instance

-- ---------------------------------------------------------------------------
-- Lemmas about the sort model
-- ---------------------------------------------------------------------------

theorem insertOrd_perm (le : α → α → Bool) (a : α) (l : List α) :
    (insertOrd le a l).Perm (a :: l) := by
  induction l with
  | nil => simp [insertOrd]
  | cons b bs ih =>
      by_cases h : le b a = true
      · simp only [insertOrd, h, if_true]
        exact (ih.cons b).trans (List.Perm.swap a b bs)
      · simp only [insertOrd, h]
        simp

theorem jsSort_aux_perm (le : α → α → Bool) (l acc : List α) :
    (l.foldl (fun acc a => insertOrd le a acc) acc).Perm (acc ++ l) := by
  induction l generalizing acc with
  | nil => simp
  | cons x xs ih =>
      simp only [List.foldl_cons]
      refine (ih (insertOrd le x acc)).trans ?_
      have h1 : (insertOrd le x acc ++ xs).Perm ((x :: acc) ++ xs) :=
        (insertOrd_perm le x acc).append_right xs
      refine h1.trans ?_
      simp only [List.cons_append]
      exact (List.perm_middle).symm

theorem jsSort_perm (le : α → α → Bool) (l : List α) :
    (jsSort le l).Perm l := by
  simpa using jsSort_aux_perm le l []

theorem jsSort_length (le : α → α → Bool) (l : List α) :
    (jsSort le l).length = l.length :=
  (jsSort_perm le l).length_eq

theorem mem_insertOrd (le : α → α → Bool) (a x : α) (l : List α) :
    x ∈ insertOrd le a l ↔ x = a ∨ x ∈ l := by
  rw [(insertOrd_perm le a l).mem_iff]
  simp

theorem mem_jsSort (le : α → α → Bool) (x : α) (l : List α) :
    x ∈ jsSort le l ↔ x ∈ l :=
  (jsSort_perm le l).mem_iff

theorem insertOrd_pairwise (le : α → α → Bool)
    (htot : ∀ a b, le a b = true ∨ le b a = true)
    (htrans : ∀ a b c, le a b = true → le b c = true → le a c = true)
    (a : α) (l : List α) (hl : l.Pairwise (fun x y => le x y = true)) :
    (insertOrd le a l).Pairwise (fun x y => le x y = true) := by
  induction l with
  | nil => simp [insertOrd]
  | cons b bs ih =>
      rcases List.pairwise_cons.mp hl with ⟨hb, hbs⟩
      by_cases h : le b a = true
      · simp only [insertOrd, h, if_true]
        refine List.pairwise_cons.mpr ⟨?_, ih hbs⟩
        intro y hy
        rcases (mem_insertOrd le a y bs).mp hy with rfl | hy
        · exact h
        · exact hb y hy
      · simp only [insertOrd, h, if_false]
        have hab : le a b = true := by
          rcases htot a b with h1 | h1
          · exact h1
          · exact absurd h1 h
        refine List.pairwise_cons.mpr ⟨?_, hl⟩
        intro y hy
        rcases List.mem_cons.mp hy with rfl | hy
        · exact hab
        · exact htrans a b y hab (hb y hy)

theorem jsSort_pairwise (le : α → α → Bool)
    (htot : ∀ a b, le a b = true ∨ le b a = true)
    (htrans : ∀ a b c, le a b = true → le b c = true → le a c = true)
    (l : List α) :
    (jsSort le l).Pairwise (fun x y => le x y = true) := by
  suffices h : ∀ acc, acc.Pairwise (fun x y => le x y = true) →
      (l.foldl (fun acc a => insertOrd le a acc) acc).Pairwise
        (fun x y => le x y = true) from h [] (by simp)
  induction l with
  | nil => intro acc hacc; simpa using hacc
  | cons x xs ih =>
      intro acc hacc
      simp only [List.foldl_cons]
      exact ih (insertOrd le x acc) (insertOrd_pairwise le htot htrans x acc hacc)

-- ---------------------------------------------------------------------------
-- Lemmas about word splitting (used for chunk coverage)
-- ---------------------------------------------------------------------------

theorem wordsAux_ws_all (ws : Str) (hws : ∀ c ∈ ws, isWsChar c = true)
    (acc : Str) : wordsAux ws acc = wordsAux [] acc := by
  induction ws generalizing acc with
  | nil => rfl
  | cons c cs ih =>
      have hc : isWsChar c = true := hws c (List.mem_cons_self c cs)
      have hcs : ∀ x ∈ cs, isWsChar x = true := fun x hx =>
        hws x (List.mem_cons_of_mem c hx)
      by_cases hacc : acc = []
      · subst hacc
        simp only [wordsAux, hc, if_true, if_pos rfl]
        simpa using ih hcs []
      · simp only [wordsAux, hc, if_true, if_neg hacc]
        have := ih hcs []
        simp only [wordsAux] at this
        simp [this, hacc]

theorem wordsAux_append_ws (s ws : Str)
    (hws : ∀ c ∈ ws, isWsChar c = true) (acc : Str) :
    wordsAux (s ++ ws) acc = wordsAux s acc := by
  induction s generalizing acc with
  | nil => simpa using wordsAux_ws_all ws hws acc
  | cons c cs ih =>
      by_cases hc : isWsChar c = true
      · by_cases hacc : acc = []
        · subst hacc; simp only [List.cons_append, wordsAux, hc, if_true,
            if_pos rfl]; exact ih []
        · simp only [List.cons_append, wordsAux, hc, if_true, if_neg hacc]
          exact congrArg (acc.reverse :: ·) (ih [])
      · simp only [List.cons_append, wordsAux, hc, if_false]
        exact ih (c :: acc)

theorem wordsAux_ws_prepend (ws s : Str)
    (hws : ∀ c ∈ ws, isWsChar c = true) :
    wordsAux (ws ++ s) [] = wordsAux s [] := by
  induction ws with
  | nil => rfl
  | cons c cs ih =>
      have hc : isWsChar c = true := hws c (List.mem_cons_self c cs)
      have hcs : ∀ x ∈ cs, isWsChar x = true := fun x hx =>
        hws x (List.mem_cons_of_mem c hx)
      simp only [List.cons_append, wordsAux, hc, if_true, if_pos rfl]
      exact ih hcs

theorem wordsAux_append_sep (sep : Char) (hsep : isWsChar sep = true)
    (a b : Str) (acc : Str) :
    wordsAux (a ++ sep :: b) acc = wordsAux a acc ++ wordsAux b [] := by
  induction a generalizing acc with
  | nil =>
      by_cases hacc : acc = []
      · subst hacc; simp [wordsAux, hsep]
      · simp [wordsAux, hsep, hacc]
  | cons c cs ih =>
      by_cases hc : isWsChar c = true
      · by_cases hacc : acc = []
        · subst hacc
          simp only [List.cons_append, wordsAux, hc, if_true, if_pos rfl]
          exact ih []
        · simp only [List.cons_append, wordsAux, hc, if_true, if_neg hacc,
            List.cons_append]
          exact congrArg (acc.reverse :: ·) (ih [])
      · simp only [List.cons_append, wordsAux, hc, if_false]
        exact ih (c :: acc)

theorem splitWords_append_space (a b : Str) :
    splitWords (a ++ ' ' :: b) = splitWords a ++ splitWords b := by
  exact wordsAux_append_sep ' ' (by decide) a b []

theorem splitWords_trim (s : Str) : splitWords (trimStr s) = splitWords s := by
  have hsplit : s = s.takeWhile isWsChar ++ s.dropWhile isWsChar :=
    (List.takeWhile_append_dropWhile isWsChar s).symm
  set t := s.dropWhile isWsChar with ht
  have htw : ∀ c ∈ s.takeWhile isWsChar, isWsChar c = true := fun c hc =>
    List.mem_takeWhile_imp hc
  have h1 : splitWords s = splitWords t := by
    conv_lhs => rw [hsplit]
    exact wordsAux_ws_prepend _ t htw
  have hsplit2 : t = (t.reverse.dropWhile isWsChar).reverse ++
      (t.reverse.takeWhile isWsChar).reverse :=
    calc t = t.reverse.reverse := (List.reverse_reverse t).symm
      _ = (t.reverse.takeWhile isWsChar ++ t.reverse.dropWhile isWsChar).reverse := by
            rw [List.takeWhile_append_dropWhile]
      _ = (t.reverse.dropWhile isWsChar).reverse ++
            (t.reverse.takeWhile isWsChar).reverse := by
            rw [List.reverse_append]
  have htw2 : ∀ c ∈ (t.reverse.takeWhile isWsChar).reverse,
      isWsChar c = true := by
    intro c hc
    exact List.mem_takeWhile_imp (List.mem_reverse.mp hc)
  have h2 : splitWords t = splitWords (trimStr s) := by
    conv_lhs => rw [hsplit2]
    exact wordsAux_append_ws _ _ htw2 []
  rw [h1, h2]

theorem splitWords_of_trim_eq_nil (s : Str) (h : trimStr s = []) :
    splitWords s = [] := by
  rw [← splitWords_trim s, h]
  rfl

-- ---------------------------------------------------------------------------
-- Chunker lemmas: coverage and monotonicity
-- ---------------------------------------------------------------------------

theorem chunkLoop_coverage (tw : Nat) (cues : List TranscriptSegment)
    (cur : Str) (cs cd : ℚ) :
    ((chunkLoop tw cues cur cs cd).map (fun c => splitWords c.text)).flatten =
      splitWords cur ++ (cues.map (fun c => splitWords c.text)).flatten := by
  induction cues generalizing cur cs cd with
  | nil =>
      by_cases h : trimStr cur = []
      · simp [chunkLoop, h, splitWords_of_trim_eq_nil cur h]
      · simp [chunkLoop, h, splitWords_trim]
  | cons seg rest ih =>
      by_cases hpush : tw ≤ (splitWords cur).length ∧ cur ≠ []
      · simp only [chunkLoop, if_pos hpush, List.map_cons, List.flatten_cons]
        rw [ih, splitWords_trim]
      · simp only [chunkLoop, if_neg hpush]
        by_cases hcur : cur = []
        · subst hcur
          simp only [if_pos rfl]
          rw [ih]
          simp [splitWords, wordsAux]
        · simp only [if_neg hcur]
          rw [ih, splitWords_append_space]
          simp [List.append_assoc]

theorem chunkLoop_monotone (tw : Nat) (cues : List TranscriptSegment)
    (cur : Str) (cs cd : ℚ)
    (hcs : ∀ c ∈ cues, cs < c.start)
    (hmono : cues.Pairwise (fun a b => a.start < b.start)) :
    (chunkLoop tw cues cur cs cd).Pairwise (fun a b => a.start < b.start) ∧
      ∀ ch ∈ chunkLoop tw cues cur cs cd, cs ≤ ch.start := by
  induction cues generalizing cur cs cd with
  | nil =>
      by_cases h : trimStr cur = []
      · simp [chunkLoop, h]
      · simp [chunkLoop, h]
  | cons seg rest ih =>
      have hseg : cs < seg.start := hcs seg (List.mem_cons_self seg rest)
      have hrest : ∀ c ∈ rest, seg.start < c.start := by
        intro c hc
        exact (List.pairwise_cons.mp hmono).1 c hc
      have hrest' : ∀ c ∈ rest, cs < c.start := fun c hc =>
        lt_trans hseg (hrest c hc)
      have hmono' : rest.Pairwise (fun a b => a.start < b.start) :=
        (List.pairwise_cons.mp hmono).2
      by_cases hpush : tw ≤ (splitWords cur).length ∧ cur ≠ []
      · simp only [chunkLoop, if_pos hpush]
        obtain ⟨ihp, ihm⟩ := ih seg.text seg.start seg.duration hrest hmono'
        constructor
        · refine List.pairwise_cons.mpr ⟨?_, ihp⟩
          intro ch hch
          exact lt_of_lt_of_le hseg (ihm ch hch)
        · intro ch hch
          rcases List.mem_cons.mp hch with rfl | hch
          · exact le_refl _
          · exact le_of_lt (lt_of_lt_of_le hseg (ihm ch hch))
      · simp only [chunkLoop, if_neg hpush]
        by_cases hcur : cur = []
        · subst hcur
          simp only [if_pos rfl]
          obtain ⟨ihp, ihm⟩ := ih seg.text seg.start
            (seg.start + seg.duration - seg.start) hrest hmono'
          exact ⟨ihp, fun ch hch => le_of_lt (lt_of_lt_of_le hseg (ihm ch hch))⟩
        · simp only [if_neg hcur]
          obtain ⟨ihp, ihm⟩ := ih (cur ++ ' ' :: seg.text) cs
            (seg.start + seg.duration - cs) hrest' hmono'
          exact ⟨ihp, ihm⟩

/-- C6: for every cue list and every `targetWords ≥ 1`, concatenating the
texts of the chunks returned by `chunkTranscript` yields the same
whitespace-separated token sequence as concatenating the cue texts (no
token dropped or reordered); in particular, for the cues
`[{text:"hello", start:0, duration:2}, {text:"world", start:2, duration:2}]`
with `targetWords = 80`, `chunkTranscript` returns exactly one chunk
`{text:"hello world", start:0, duration:4}`. -/
theorem chunkTranscript_coverage (cues : List TranscriptSegment)
    (targetWords : Nat) (h : 1 ≤ targetWords) :
    ((chunkTranscript cues targetWords).map (fun c => splitWords c.text)).flatten =
      (cues.map (fun c => splitWords c.text)).flatten ∧
    chunkTranscript [⟨"hello".toList, 0, 2⟩, ⟨"world".toList, 2, 2⟩] 80 =
      [⟨"hello world".toList, 0, 4⟩] := by
  constructor
  · have hcov := chunkLoop_coverage targetWords cues [] 0 0
    simpa [chunkTranscript, splitWords, wordsAux] using hcov
  · have h0 : ¬ (80 ≤ (splitWords ['h', 'e', 'l', 'l', 'o']).length) := by decide
    have h1 : trimStr ['h', 'e', 'l', 'l', 'o', ' ', 'w', 'o', 'r', 'l', 'd'] =
        ['h', 'e', 'l', 'l', 'o', ' ', 'w', 'o', 'r', 'l', 'd'] := by decide
    have h2 : (['h', 'e', 'l', 'l', 'o'] : Str) ≠ [] := by decide
    have h4 : (['h', 'e', 'l', 'l', 'o', ' ', 'w', 'o', 'r', 'l', 'd'] : Str) ≠ [] := by
      decide
    simp only [chunkTranscript, chunkLoop]
    norm_num [h0, h1, h2, h4]

/-- Witness for C6 at a concrete cue list and `targetWords = 80`. -/
theorem chunkTranscript_coverage_witness :
    1 ≤ 80 ∧
    (((chunkTranscript [⟨"hi".toList, 0, 1⟩] 80).map
        (fun c => splitWords c.text)).flatten =
      ([(⟨"hi".toList, 0, 1⟩ : TranscriptSegment)].map
        (fun c => splitWords c.text)).flatten ∧
    chunkTranscript [⟨"hello".toList, 0, 2⟩, ⟨"world".toList, 2, 2⟩] 80 =
      [⟨"hello world".toList, 0, 4⟩]) :=
  ⟨by decide, chunkTranscript_coverage [⟨"hi".toList, 0, 1⟩] 80 (by decide)⟩

/-- C7: for every cue list in strictly increasing temporal order, the chunk
list produced by `chunkTranscript` has strictly increasing start times;
non-overlap `chunks[i].start + chunks[i].duration ≤ chunks[i+1].start` is
not required (witnessed by a valid cue list whose chunks overlap). -/
theorem chunkTranscript_monotone (cues : List TranscriptSegment)
    (targetWords : Nat)
    (hmono : cues.Pairwise (fun a b => a.start < b.start)) :
    (chunkTranscript cues targetWords).Pairwise (fun a b => a.start < b.start) ∧
    ¬ ((chunkTranscript [⟨"a b".toList, 0, 100⟩, ⟨"c".toList, 1, 1⟩] 1).Chain'
        (fun a b => a.start + a.duration ≤ b.start)) := by
  constructor
  · cases cues with
    | nil => simp [chunkTranscript, chunkLoop, trimStr]
    | cons c rest =>
        have hc := List.pairwise_cons.mp hmono
        have hstep : chunkTranscript (c :: rest) targetWords =
            chunkLoop targetWords rest c.text c.start
              (c.start + c.duration - c.start) := by
          simp [chunkTranscript, chunkLoop, splitWords, wordsAux]
        rw [hstep]
        exact (chunkLoop_monotone targetWords rest c.text c.start _ hc.1 hc.2).1
  · have h0 : (1 ≤ (splitWords ['a', ' ', 'b']).length) := by decide
    have h1 : trimStr ['a', ' ', 'b'] = ['a', ' ', 'b'] := by decide
    have h2 : trimStr ['c'] = ['c'] := by decide
    have h3 : (['a', ' ', 'b'] : Str) ≠ [] := by decide
    have h5 : (['c'] : Str) ≠ [] := by decide
    simp only [chunkTranscript, chunkLoop]
    norm_num [h0, h1, h2, h3, h5, List.chain'_cons]

/-- Witness for C7 at a concrete strictly ordered cue list. -/
theorem chunkTranscript_monotone_witness :
    ([(⟨"x".toList, 0, 2⟩ : TranscriptSegment), ⟨"y".toList, 3, 2⟩].Pairwise
      (fun a b => a.start < b.start)) ∧
    ((chunkTranscript [⟨"x".toList, 0, 2⟩, ⟨"y".toList, 3, 2⟩] 1).Pairwise
      (fun a b => a.start < b.start) ∧
    ¬ ((chunkTranscript [⟨"a b".toList, 0, 100⟩, ⟨"c".toList, 1, 1⟩] 1).Chain'
        (fun a b => a.start + a.duration ≤ b.start))) :=
  ⟨by decide,
   chunkTranscript_monotone [⟨"x".toList, 0, 2⟩, ⟨"y".toList, 3, 2⟩] 1 (by decide)⟩

-- ---------------------------------------------------------------------------
-- String splitting / joining lemmas (for locator sanitization)
-- ---------------------------------------------------------------------------

theorem splitFirst_fst_not_mem (sep : Char) (s : Str) :
    sep ∉ (splitFirst sep s).1 := by
  induction s with
  | nil => simp [splitFirst]
  | cons c cs ih =>
      by_cases h : c = sep
      · simp [splitFirst, h]
      · simp only [splitFirst, if_neg h]
        intro hmem
        rcases List.mem_cons.mp hmem with heq | hmem
        · exact h heq.symm
        · exact ih hmem

theorem splitFirst_of_not_mem (sep : Char) (s : Str) (h : sep ∉ s) :
    splitFirst sep s = (s, none) := by
  induction s with
  | nil => rfl
  | cons c cs ih =>
      have hc : ¬ c = sep := fun hh => h (hh ▸ List.mem_cons_self c cs)
      have hcs : sep ∉ cs := fun hh => h (List.mem_cons_of_mem c hh)
      simp [splitFirst, hc, ih hcs]

theorem splitFirst_append_sep (sep : Char) (base rest : Str)
    (h : sep ∉ base) : splitFirst sep (base ++ sep :: rest) = (base, some rest) := by
  induction base with
  | nil => simp [splitFirst]
  | cons c cs ih =>
      have hc : ¬ c = sep := fun hh => h (hh ▸ List.mem_cons_self c cs)
      have hcs : sep ∉ cs := fun hh => h (List.mem_cons_of_mem c hh)
      simp [splitFirst, hc, ih hcs]

theorem splitFirst_fst_subset (sep : Char) (s : Str) {c : Char}
    (h : c ∈ (splitFirst sep s).1) : c ∈ s := by
  induction s with
  | nil => simpa [splitFirst] using h
  | cons x xs ih =>
      by_cases hx : x = sep
      · simp [splitFirst, hx] at h
      · simp only [splitFirst, if_neg hx] at h
        rcases List.mem_cons.mp h with heq | hmem
        · exact heq ▸ List.mem_cons_self x xs
        · exact List.mem_cons_of_mem x (ih hmem)

theorem splitFirst_snd_subset (sep : Char) (s : Str) {r : Str} {c : Char}
    (h : (splitFirst sep s).2 = some r) (hc : c ∈ r) : c ∈ s := by
  induction s with
  | nil => simp [splitFirst] at h
  | cons x xs ih =>
      by_cases hx : x = sep
      · simp only [splitFirst, if_pos hx, Option.some.injEq] at h
        exact List.mem_cons_of_mem x (h ▸ hc)
      · simp only [splitFirst, if_neg hx] at h
        exact List.mem_cons_of_mem x (ih h)

theorem splitAllAux_not_mem (sep : Char) (s : Str) (acc : Str)
    (hacc : sep ∉ acc) :
    ∀ p ∈ splitAllAux sep s acc, sep ∉ p := by
  induction s generalizing acc with
  | nil =>
      intro p hp
      simp only [splitAllAux, List.mem_singleton] at hp
      subst hp
      simpa using hacc
  | cons c cs ih =>
      intro p hp
      by_cases hc : c = sep
      · simp only [splitAllAux, if_pos hc] at hp
        rcases List.mem_cons.mp hp with rfl | hp
        · simpa using hacc
        · exact ih [] (by simp) p hp
      · simp only [splitAllAux, if_neg hc] at hp
        refine ih (c :: acc) ?_ p hp
        intro hmem
        rcases List.mem_cons.mp hmem with heq | hmem
        · exact hc heq.symm
        · exact hacc hmem

theorem mem_splitAll_not_mem (sep : Char) (s : Str) {p : Str}
    (hp : p ∈ splitAll sep s) : sep ∉ p :=
  splitAllAux_not_mem sep s [] (by simp) p hp

theorem splitAllAux_prepend (sep : Char) (p s : Str) (acc : Str)
    (hp : sep ∉ p) :
    splitAllAux sep (p ++ s) acc = splitAllAux sep s (p.reverse ++ acc) := by
  induction p generalizing acc with
  | nil => simp
  | cons c cs ih =>
      have hc : ¬ c = sep := fun hh => hp (hh ▸ List.mem_cons_self c cs)
      have hcs : sep ∉ cs := fun hh => hp (List.mem_cons_of_mem c hh)
      simp only [List.cons_append, splitAllAux, if_neg hc]
      exact (ih (c :: acc) hcs).trans (by simp)

theorem splitAll_joinSep (sep : Char) (pieces : List Str)
    (hne : pieces ≠ []) (hs : ∀ p ∈ pieces, sep ∉ p) :
    splitAll sep (joinSep sep pieces) = pieces := by
  induction pieces with
  | nil => exact absurd rfl hne
  | cons p rest ih =>
      have hp : sep ∉ p := hs p (List.mem_cons_self p rest)
      cases rest with
      | nil =>
          have h2 := splitAllAux_prepend sep p [] [] hp
          simp only [List.append_nil] at h2
          show splitAllAux sep p [] = [p]
          rw [h2]
          simp [splitAllAux]
      | cons q rest' =>
          have hrest : ∀ x ∈ q :: rest', sep ∉ x := fun x hx =>
            hs x (List.mem_cons_of_mem p hx)
          show splitAllAux sep (p ++ sep :: joinSep sep (q :: rest')) [] =
            p :: q :: rest'
          rw [splitAllAux_prepend sep p _ [] hp]
          simp only [List.append_nil]
          have hstep : splitAllAux sep (sep :: joinSep sep (q :: rest'))
              p.reverse = p.reverse.reverse ::
                splitAllAux sep (joinSep sep (q :: rest')) [] := by
            simp [splitAllAux]
          rw [hstep, List.reverse_reverse]
          have hih : splitAllAux sep (joinSep sep (q :: rest')) [] =
              q :: rest' := ih (by simp) hrest
          rw [hih]

theorem parseQuery_mem_good (q : Str) :
    ∀ p ∈ parseQuery q, '&' ∉ p.1 ∧ '&' ∉ p.2 ∧ '=' ∉ p.1 := by
  intro p hp
  unfold parseQuery at hp
  rcases List.mem_map.mp hp with ⟨piece, hpiece, hpeq⟩
  have hpiece' : piece ∈ splitAll '&' q := List.mem_of_mem_filter hpiece
  have hamp : '&' ∉ piece := mem_splitAll_not_mem '&' q hpiece'
  subst hpeq
  refine ⟨?_, ?_, ?_⟩
  · intro hmem
    exact hamp (splitFirst_fst_subset '=' piece hmem)
  · intro hmem
    rcases hsnd : (splitFirst '=' piece).2 with _ | v
    · simp [hsnd] at hmem
    · simp only [hsnd, Option.getD_some] at hmem
      exact hamp (splitFirst_snd_subset '=' piece hsnd hmem)
  · exact splitFirst_fst_not_mem '=' piece

theorem parseQuery_serializeQuery (ps : List (Str × Str)) (hne : ps ≠ [])
    (hgood : ∀ p ∈ ps, '&' ∉ p.1 ∧ '&' ∉ p.2 ∧ '=' ∉ p.1) :
    parseQuery (serializeQuery ps) = ps := by
  have hmapne : ps.map (fun p => p.1 ++ '=' :: p.2) ≠ [] := by
    simpa using hne
  have hnosep : ∀ x ∈ ps.map (fun p => p.1 ++ '=' :: p.2), '&' ∉ x := by
    intro x hx hmem
    rcases List.mem_map.mp hx with ⟨p, hp, rfl⟩
    rcases List.mem_append.mp hmem with h1 | h1
    · exact (hgood p hp).1 h1
    · rcases List.mem_cons.mp h1 with heq | h1
      · exact absurd heq (by decide)
      · exact (hgood p hp).2.1 h1
  unfold parseQuery serializeQuery
  rw [splitAll_joinSep '&' _ hmapne hnosep]
  have hfilter : (ps.map (fun p => p.1 ++ '=' :: p.2)).filter
      (fun p => p ≠ []) = ps.map (fun p => p.1 ++ '=' :: p.2) := by
    refine List.filter_eq_self.mpr ?_
    intro a ha
    rcases List.mem_map.mp ha with ⟨p, _, rfl⟩
    simp
  rw [hfilter, List.map_map]
  have hid : ∀ p ∈ ps,
      ((fun piece =>
          ((splitFirst '=' piece).1, ((splitFirst '=' piece).2).getD [])) ∘
        (fun p => p.1 ++ '=' :: p.2)) p = id p := by
    intro p hp
    have hsf := splitFirst_append_sep '=' p.1 p.2 (hgood p hp).2.2
    simp [Function.comp, hsf]
  exact (List.map_congr_left hid).trans (List.map_id ps)

/-- C9: stripping the proof-of-origin gating query flag (the `exp`
parameter) from a track locator URL is idempotent: applying the strip
operation to its own output yields the same locator string as applying it
once. -/
theorem stripExp_idem (url : Str) : stripExp (stripExp url) = stripExp url := by
  rcases h : splitFirst '?' url with ⟨base, q?⟩
  cases q? with
  | none =>
      have h1 : stripExp url = url := by
        unfold stripExp
        rw [h]
      rw [h1]
      exact h1
  | some q =>
      have hbase : '?' ∉ base := by
        have := splitFirst_fst_not_mem '?' url
        rw [h] at this
        exact this
      have h1 : stripExp url =
          (if (parseQuery q).filter
              (fun p => p.1 ≠ ('e' :: 'x' :: 'p' :: [])) = [] then base
            else base ++ '?' :: serializeQuery
              ((parseQuery q).filter
                (fun p => p.1 ≠ ('e' :: 'x' :: 'p' :: [])))) := by
        unfold stripExp
        rw [h]
      set ps := (parseQuery q).filter
        (fun p => p.1 ≠ ('e' :: 'x' :: 'p' :: [])) with hps
      by_cases hempty : ps = []
      · rw [h1, if_pos hempty]
        have h2 : splitFirst '?' base = (base, none) :=
          splitFirst_of_not_mem '?' base hbase
        unfold stripExp
        rw [h2]
      · rw [h1, if_neg hempty]
        have h2 : splitFirst '?' (base ++ '?' :: serializeQuery ps) =
            (base, some (serializeQuery ps)) :=
          splitFirst_append_sep '?' base _ hbase
        have hgood : ∀ p ∈ ps, '&' ∉ p.1 ∧ '&' ∉ p.2 ∧ '=' ∉ p.1 := by
          intro p hp
          exact parseQuery_mem_good q p (List.mem_of_mem_filter hp)
        have hparse : parseQuery (serializeQuery ps) = ps :=
          parseQuery_serializeQuery ps hempty hgood
        have hfilter : ps.filter (fun p => p.1 ≠ ('e' :: 'x' :: 'p' :: [])) =
            ps := by
          refine List.filter_eq_self.mpr ?_
          intro a ha
          rw [hps] at ha
          exact (List.mem_filter.mp ha).2
        unfold stripExp
        rw [h2]
        show (if (parseQuery (serializeQuery ps)).filter
            (fun p => p.1 ≠ ('e' :: 'x' :: 'p' :: [])) = [] then base
          else base ++ '?' :: serializeQuery
            ((parseQuery (serializeQuery ps)).filter
              (fun p => p.1 ≠ ('e' :: 'x' :: 'p' :: [])))) =
          base ++ '?' :: serializeQuery ps
        rw [hparse, hfilter, if_neg hempty]

-- ---------------------------------------------------------------------------
-- Chat loop budget lemmas
-- ---------------------------------------------------------------------------

theorem chatTurnAux_count (policy : Nat → Option Str) :
    ∀ fuel i, countToolCalls (chatTurnAux policy fuel i) ≤ fuel - 1 ∧
      (chatTurnAux policy fuel i).length ≤ fuel := by
  intro fuel
  induction fuel with
  | zero => intro i; simp [chatTurnAux, countToolCalls]
  | succ f ih =>
      intro i
      rcases hp : policy i with _ | q
      · simp [chatTurnAux, hp, countToolCalls, isToolCall]
      · by_cases hf : f = 0
        · subst hf; simp [chatTurnAux, hp, countToolCalls, isToolCall]
        · simp only [chatTurnAux, hp, if_neg hf]
          constructor
          · have hc := (ih (i + 1)).1
            have hstep : countToolCalls (ChatStep.toolCall q ::
                chatTurnAux policy f (i + 1)) =
              1 + countToolCalls (chatTurnAux policy f (i + 1)) := rfl
            rw [hstep]
            omega
          · simp only [List.length_cons]
            have hl := (ih (i + 1)).2
            omega

theorem finalText_drop_all (k : Nat) :
    (([ChatStep.finalText]).drop k).all (fun s => !(isToolCall s)) = true := by
  cases k with
  | zero => rfl
  | succ k => simp

theorem chatTurnAux_drop (policy : Nat → Option Str) :
    ∀ fuel i, ((chatTurnAux policy fuel i).drop (fuel - 1)).all
      (fun s => !(isToolCall s)) = true := by
  intro fuel
  induction fuel with
  | zero => intro i; simp [chatTurnAux]
  | succ f ih =>
      intro i
      rcases hp : policy i with _ | q
      · simp only [chatTurnAux, hp]
        exact finalText_drop_all (f + 1 - 1)
      · by_cases hf : f = 0
        · subst hf
          simp only [chatTurnAux, hp, if_pos rfl]
          exact finalText_drop_all 0
        · simp only [chatTurnAux, hp, if_neg hf]
          obtain ⟨f', rfl⟩ : ∃ f', f = f' + 1 :=
            ⟨f - 1, (Nat.succ_pred_eq_of_pos (Nat.pos_of_ne_zero hf)).symm⟩
          simp only [Nat.add_sub_cancel, List.drop_succ_cons]
          simpa using ih (i + 1)

/-- C10: within a single conversational turn, the agentic chat stream of
`handleChatStream` (`maxSteps = 4`) issues at most 3 `search_transcript`
tool invocations, for a total of at most 4 model steps; and a turn in which
the model has already requested the tool 3 times never issues a 4th tool
call (every step after the third is text-only). -/
theorem chat_tool_budget (policy : Nat → Option Str) :
    countToolCalls (handleChatStreamSteps policy) ≤ 3 ∧
    (handleChatStreamSteps policy).length ≤ 4 ∧
    ((handleChatStreamSteps policy).drop 3).all
      (fun s => !(isToolCall s)) = true := by
  refine ⟨?_, ?_, ?_⟩
  · simpa using (chatTurnAux_count policy 4 0).1
  · simpa using (chatTurnAux_count policy 4 0).2
  · simpa using chatTurnAux_drop policy 4 0

-- ---------------------------------------------------------------------------
-- Cosine similarity at degenerate (zero-vector) inputs
-- ---------------------------------------------------------------------------

theorem sqrtQ_zero : sqrtQ 0 = 0 := by
  norm_num [sqrtQ]

theorem dot_zero_left (a b : List ℚ) (ha : ∀ x ∈ a, x = 0) : dot a b = 0 := by
  induction a generalizing b with
  | nil => cases b <;> simp [dot]
  | cons x xs ih =>
      cases b with
      | nil => simp [dot]
      | cons y ys =>
          have hx : x = 0 := ha x (List.mem_cons_self x xs)
          have hxs : ∀ z ∈ xs, z = 0 := fun z hz => ha z (List.mem_cons_of_mem x hz)
          simp [dot, hx, ih ys hxs]

theorem simSums_normA_zero (a b : List ℚ) (ha : ∀ x ∈ a, x = 0) :
    (simSums a b).2.1 = 0 := by
  induction a generalizing b with
  | nil => cases b <;> simp [simSums]
  | cons x xs ih =>
      cases b with
      | nil => simp [simSums]
      | cons y ys =>
          have hx : x = 0 := ha x (List.mem_cons_self x xs)
          have hxs : ∀ z ∈ xs, z = 0 := fun z hz => ha z (List.mem_cons_of_mem x hz)
          simp [simSums, hx, ih ys hxs]

theorem simSums_normB_zero (a b : List ℚ) (hb : ∀ x ∈ b, x = 0) :
    (simSums a b).2.2 = 0 := by
  induction a generalizing b with
  | nil => cases b <;> simp [simSums]
  | cons x xs ih =>
      cases b with
      | nil => simp [simSums]
      | cons y ys =>
          have hy : y = 0 := hb y (List.mem_cons_self y ys)
          have hys : ∀ z ∈ ys, z = 0 := fun z hz => hb z (List.mem_cons_of_mem y hz)
          simp [simSums, hy, ih ys hys]

theorem cosineSimilarity_degenerate (a b : List ℚ)
    (h : (∀ x ∈ a, x = 0) ∨ (∀ x ∈ b, x = 0)) : cosineSimilarity a b = 0 := by
  show (simSums a b).1 /
    (sqrtQ (simSums a b).2.1 * sqrtQ (simSums a b).2.2) = 0
  rcases h with ha | hb
  · rw [simSums_normA_zero a b ha, sqrtQ_zero, zero_mul, div_zero]
  · rw [simSums_normB_zero a b hb, sqrtQ_zero, mul_zero, div_zero]

/-- C5 (counterexample): on the zero vectors `[0]`, `[0]` the retrieval
layer's `cosineSimilarity` does not return 1 — it performs the unguarded
division by a zero denominator (`NaN` in JavaScript; the division-by-zero
default 0 in the rational model). -/
theorem cosineSimilarity_zero_counterexample :
    ¬ (cosineSimilarity [(0 : ℚ)] [(0 : ℚ)] = 1) := by
  rw [cosineSimilarity_degenerate [(0 : ℚ)] [(0 : ℚ)] (Or.inl (by simp))]
  norm_num

/-- C5 (amended): for every pair of equal-dimension vectors with at least
one zero vector, the segmenter's `cosine` returns 1 (its zero-denominator
guard); the retrieval layer's `cosineSimilarity` has no such guard and does
not return 1 (it divides by a zero denominator). -/
theorem cosine_zero_guard_amended (a b : List ℚ) (hlen : a.length = b.length)
    (h : (∀ x ∈ a, x = 0) ∨ (∀ x ∈ b, x = 0)) :
    cosine a b = 1 ∧ cosineSimilarity a b ≠ 1 := by
  constructor
  · unfold cosine
    rcases h with ha | hb
    · rw [dot_zero_left a a ha, sqrtQ_zero, zero_mul]
      simp
    · rw [dot_zero_left b b hb, sqrtQ_zero, mul_zero]
      simp
  · rw [cosineSimilarity_degenerate a b h]
    norm_num

/-- Witness for C5 (amended) at the concrete zero vectors `[0]`, `[0]`. -/
theorem cosine_zero_guard_amended_witness :
    ([(0 : ℚ)].length = [(0 : ℚ)].length) ∧
    ((∀ x ∈ [(0 : ℚ)], x = 0) ∨ (∀ x ∈ [(0 : ℚ)], x = 0)) ∧
    (cosine [(0 : ℚ)] [(0 : ℚ)] = 1 ∧
      cosineSimilarity [(0 : ℚ)] [(0 : ℚ)] ≠ 1) :=
  ⟨rfl, Or.inl (by simp),
    cosine_zero_guard_amended [(0 : ℚ)] [(0 : ℚ)] rfl (Or.inl (by simp))⟩

-- ---------------------------------------------------------------------------
-- Hybrid search: comparator properties, ordering, dedup
-- ---------------------------------------------------------------------------

theorem hybridLe_total (a b : SearchResult) :
    hybridLe a b = true ∨ hybridLe b a = true := by
  cases ha : a.matchType <;> cases hb : b.matchType <;>
    simp [hybridLe, ha, hb] <;>
    first
      | exact le_total b.score a.score
      | exact le_total a.score b.score

theorem hybridLe_trans (a b c : SearchResult) (h1 : hybridLe a b = true)
    (h2 : hybridLe b c = true) : hybridLe a c = true := by
  cases ha : a.matchType <;> cases hb : b.matchType <;>
    cases hc : c.matchType <;>
    simp [hybridLe, ha, hb, hc] at * <;>
    exact le_trans h2 h1

theorem hybridLe_sem_imp (a b : SearchResult) (h : hybridLe a b = true)
    (ha : a.matchType = MatchType.semantic) :
    b.matchType = MatchType.semantic := by
  cases hb : b.matchType
  · simp [hybridLe, ha, hb] at h
  · rfl

theorem hybridLe_score (a b : SearchResult) (h : hybridLe a b = true)
    (ha : a.matchType = MatchType.semantic)
    (hb : b.matchType = MatchType.semantic) : b.score ≤ a.score := by
  simpa [hybridLe, ha, hb] using h

/-- If every kept element's image under `g` agrees with `h` on its source,
mapping a `filterMap` is a sublist of mapping the source list. -/
theorem map_filterMap_sublist {α β γ : Type _} (l : List α) (f : α → Option β)
    (g : β → γ) (hm : α → γ) (hf : ∀ a b, f a = some b → g b = hm a) :
    ((l.filterMap f).map g).Sublist (l.map hm) := by
  induction l with
  | nil => simp
  | cons a l ih =>
      cases hfa : f a with
      | none =>
          simp only [List.filterMap_cons, hfa, List.map_cons]
          exact ih.cons (hm a)
      | some b =>
          simp only [List.filterMap_cons, hfa, List.map_cons]
          rw [hf a b hfa]
          exact ih.cons₂ (hm a)

theorem exactSearch_mem (q : Str) (segs : List EmbeddedSegment) :
    ∀ r ∈ exactSearch q segs,
      r.matchType = MatchType.exact ∧ r.score = 1 := by
  intro r hr
  unfold exactSearch at hr
  by_cases htrim : trimStr q = []
  · simp [htrim] at hr
  · rw [if_neg htrim] at hr
    rcases List.mem_filterMap.mp hr with ⟨p, _, hp⟩
    by_cases hocc : occursIn (trimStr (lowerStr q)) (lowerStr p.2.text) = true
    · rw [if_pos hocc] at hp
      cases hp
      exact ⟨rfl, rfl⟩
    · simp [hocc] at hp

theorem exactSearch_idx_sublist (q : Str) (segs : List EmbeddedSegment) :
    ((exactSearch q segs).map (fun r => r.index)).Sublist
      (List.range segs.length) := by
  unfold exactSearch
  by_cases htrim : trimStr q = []
  · simp [htrim]
  · rw [if_neg htrim]
    rw [← List.enum_map_fst segs]
    refine map_filterMap_sublist segs.enum _ _ Prod.fst ?_
    intro p r hp
    by_cases hocc : occursIn (trimStr (lowerStr q)) (lowerStr p.2.text) = true
    · rw [if_pos hocc] at hp
      cases hp
      rfl
    · simp [hocc] at hp

theorem exactSearch_idx_nodup (q : Str) (segs : List EmbeddedSegment) :
    ((exactSearch q segs).map (fun r => r.index)).Nodup :=
  (exactSearch_idx_sublist q segs).nodup (List.nodup_range segs.length)

theorem semanticSearch_mem (qe : List ℚ) (segs : List EmbeddedSegment)
    (topK : Nat) : ∀ p ∈ semanticSearch qe segs topK, p.1 ∈ segs := by
  intro p hp
  unfold semanticSearch at hp
  have hp1 : p ∈ jsSort scoreDescLe
      (segs.map fun seg => (seg, cosineSimilarity qe seg.embedding)) :=
    List.mem_of_mem_take hp
  have hp2 := (mem_jsSort scoreDescLe p _).mp hp1
  rcases List.mem_map.mp hp2 with ⟨seg, hseg, rfl⟩
  exact hseg

theorem wellIndexed_map (segs : List EmbeddedSegment) (hw : wellIndexed segs) :
    segs.map (fun s => s.index) = List.range segs.length := hw

theorem semanticSearch_idx_nodup (qe : List ℚ) (segs : List EmbeddedSegment)
    (topK : Nat) (hw : wellIndexed segs) :
    ((semanticSearch qe segs topK).map (fun p => p.1.index)).Nodup := by
  unfold semanticSearch
  have hscored : ((segs.map fun seg =>
      (seg, cosineSimilarity qe seg.embedding)).map (fun p => p.1.index)) =
      segs.map (fun s => s.index) := by
    rw [List.map_map]
    rfl
  have hnd : ((segs.map fun seg =>
      (seg, cosineSimilarity qe seg.embedding)).map
        (fun p => p.1.index)).Nodup := by
    rw [hscored, wellIndexed_map segs hw]
    exact List.nodup_range segs.length
  have hperm := (jsSort_perm scoreDescLe
    (segs.map fun seg => (seg, cosineSimilarity qe seg.embedding))).map
    (fun p => p.1.index)
  have hnd2 := (hperm.nodup_iff).mpr hnd
  exact ((List.take_sublist topK _).map
    (fun (p : EmbeddedSegment × ℚ) => p.1.index)).nodup hnd2

theorem hybridSearch_eq (qe : List ℚ) (q : Str) (segs : List EmbeddedSegment)
    (topK : Nat) (h : ¬ trimStr q = []) :
    hybridSearch qe q segs topK = jsSort hybridLe
      (exactSearch q segs ++ semanticFiltered
        ((exactSearch q segs).map (fun r => r.index))
        (semanticSearch qe segs topK)) := by
  unfold hybridSearch
  rw [if_neg h]

theorem semanticFiltered_mem (ei : List Nat)
    (sem : List (EmbeddedSegment × ℚ)) :
    ∀ r ∈ semanticFiltered ei sem,
      r.matchType = MatchType.semantic ∧ (3 : ℚ)/10 < r.score ∧
        r.index ∉ ei ∧ ∃ p ∈ sem, p.1 = r.segment := by
  intro r hr
  unfold semanticFiltered at hr
  rcases List.mem_filterMap.mp hr with ⟨p, hp, hcond⟩
  by_cases hc : (!(ei.contains p.1.index) && decide ((3 : ℚ)/10 < p.2)) = true
  · rw [if_pos hc] at hcond
    have hc' := hc
    rw [Bool.and_eq_true] at hc'
    rcases hc' with ⟨h1, h2⟩
    cases hcond
    refine ⟨rfl, of_decide_eq_true h2, ?_, ⟨p, hp, rfl⟩⟩
    intro hmem
    rw [Bool.not_eq_true'] at h1
    have h3 : List.contains ei p.1.index = true := List.elem_iff.mpr hmem
    exact absurd (h3.symm.trans h1) (by decide)
  · rw [if_neg hc] at hcond
    simp at hcond

theorem semanticFiltered_idx (ei : List Nat)
    (sem : List (EmbeddedSegment × ℚ)) :
    ((semanticFiltered ei sem).map (fun r => r.index)).Sublist
      (sem.map (fun p => p.1.index)) := by
  unfold semanticFiltered
  refine map_filterMap_sublist sem _ _ (fun p => p.1.index) ?_
  intro p r hp
  by_cases hc : (!(ei.contains p.1.index) && decide ((3 : ℚ)/10 < p.2)) = true
  · rw [if_pos hc] at hp
    cases hp
    rfl
  · rw [if_neg hc] at hp
    simp at hp

theorem pairwise_partition (l : List SearchResult)
    (h : l.Pairwise (fun a b => a.matchType = MatchType.semantic →
      b.matchType = MatchType.semantic)) :
    l = l.filter (fun r => r.matchType = MatchType.exact) ++
        l.filter (fun r => r.matchType = MatchType.semantic) := by
  induction l with
  | nil => rfl
  | cons x xs ih =>
      rcases List.pairwise_cons.mp h with ⟨hx, hxs⟩
      by_cases hmt : x.matchType = MatchType.exact
      · have hnsem : ¬ x.matchType = MatchType.semantic := by
          rw [hmt]
          intro hc
          cases hc
        rw [show (x :: xs).filter (fun r => r.matchType = MatchType.exact) =
            x :: xs.filter (fun r => r.matchType = MatchType.exact) by
          simp [List.filter_cons, hmt]]
        rw [show (x :: xs).filter (fun r => r.matchType = MatchType.semantic) =
            xs.filter (fun r => r.matchType = MatchType.semantic) by
          simp [List.filter_cons, hnsem]]
        rw [List.cons_append, ← ih hxs]
      · have hsem : x.matchType = MatchType.semantic := by
          cases hx2 : x.matchType
          · exact absurd hx2 hmt
          · rfl
        have hall : ∀ y ∈ xs, y.matchType = MatchType.semantic := fun y hy =>
          hx y hy hsem
        have hfe : (x :: xs).filter (fun r => r.matchType = MatchType.exact) =
            [] := by
          rw [List.filter_eq_nil_iff]
          intro a ha
          have hasem : a.matchType = MatchType.semantic := by
            rcases List.mem_cons.mp ha with rfl | ha
            · exact hsem
            · exact hall a ha
          simp [hasem]
        have hfs : (x :: xs).filter (fun r => r.matchType = MatchType.semantic) =
            x :: xs := by
          rw [List.filter_eq_self]
          intro a ha
          have hasem : a.matchType = MatchType.semantic := by
            rcases List.mem_cons.mp ha with rfl | ha
            · exact hsem
            · exact hall a ha
          simp [hasem]
        rw [hfe, hfs, List.nil_append]

/-- C3: in the output of `hybridSearch`, every "exact" result precedes
every "semantic" result (the output is its exact results followed by its
semantic results); the semantic results appear in descending score order;
and each semantic result has score strictly greater than 0.3 and an index
not present among the exact matches. -/
theorem hybridSearch_ordering (qe : List ℚ) (q : Str)
    (segs : List EmbeddedSegment) (topK : Nat) :
    hybridSearch qe q segs topK =
      (hybridSearch qe q segs topK).filter
        (fun r => r.matchType = MatchType.exact) ++
      (hybridSearch qe q segs topK).filter
        (fun r => r.matchType = MatchType.semantic) ∧
    ((hybridSearch qe q segs topK).filter
      (fun r => r.matchType = MatchType.semantic)).Pairwise
        (fun a b => b.score ≤ a.score) ∧
    ∀ r ∈ hybridSearch qe q segs topK, r.matchType = MatchType.semantic →
      (3 : ℚ)/10 < r.score ∧
        r.index ∉ (exactSearch q segs).map (fun r => r.index) := by
  by_cases htrim : trimStr q = []
  · refine ⟨?_, ?_, ?_⟩ <;> simp [hybridSearch, htrim, jsSort]
  · rw [hybridSearch_eq qe q segs topK htrim]
    have hpw := jsSort_pairwise hybridLe hybridLe_total hybridLe_trans
      (exactSearch q segs ++ semanticFiltered
        ((exactSearch q segs).map (fun r => r.index))
        (semanticSearch qe segs topK))
    refine ⟨?_, ?_, ?_⟩
    · refine pairwise_partition _ (hpw.imp ?_)
      intro a b hab ha
      exact hybridLe_sem_imp a b hab ha
    · refine List.pairwise_filter.mpr (hpw.imp ?_)
      intro a b hab hx hy
      exact hybridLe_score a b hab hx hy
    · intro r hr hsem
      have hr' := (mem_jsSort hybridLe r _).mp hr
      rcases List.mem_append.mp hr' with h1 | h1
      · have hex := (exactSearch_mem q segs r h1).1
        rw [hsem] at hex
        cases hex
      · rcases semanticFiltered_mem _ _ r h1 with ⟨_, hscore, hidx, _⟩
        exact ⟨hscore, hidx⟩

/-- Witness for C3 at a concrete query, embedding and chunk list. -/
theorem hybridSearch_ordering_witness :
    hybridSearch [1] ['a'] [⟨['a'], 0, 0, [1], 0⟩] 8 =
      (hybridSearch [1] ['a'] [⟨['a'], 0, 0, [1], 0⟩] 8).filter
        (fun r => r.matchType = MatchType.exact) ++
      (hybridSearch [1] ['a'] [⟨['a'], 0, 0, [1], 0⟩] 8).filter
        (fun r => r.matchType = MatchType.semantic) ∧
    ((hybridSearch [1] ['a'] [⟨['a'], 0, 0, [1], 0⟩] 8).filter
      (fun r => r.matchType = MatchType.semantic)).Pairwise
        (fun a b => b.score ≤ a.score) ∧
    ∀ r ∈ hybridSearch [1] ['a'] [⟨['a'], 0, 0, [1], 0⟩] 8,
      r.matchType = MatchType.semantic →
      (3 : ℚ)/10 < r.score ∧
        r.index ∉ (exactSearch ['a'] [⟨['a'], 0, 0, [1], 0⟩]).map
          (fun r => r.index) :=
  hybridSearch_ordering [1] ['a'] [⟨['a'], 0, 0, [1], 0⟩] 8

/-- C4: for any query, query embedding and well-indexed embedded chunk list
(each chunk's stored `index` equals its position, as `embedSegments`
guarantees), no chunk index appears more than once across the merged
result list returned by `hybridSearch`. -/
theorem hybridSearch_index_nodup (qe : List ℚ) (q : Str)
    (segs : List EmbeddedSegment) (topK : Nat) (hw : wellIndexed segs) :
    ((hybridSearch qe q segs topK).map (fun r => r.index)).Nodup := by
  by_cases htrim : trimStr q = []
  · simp [hybridSearch, htrim, jsSort]
  · rw [hybridSearch_eq qe q segs topK htrim]
    have hperm := (jsSort_perm hybridLe (exactSearch q segs ++
      semanticFiltered ((exactSearch q segs).map (fun r => r.index))
        (semanticSearch qe segs topK))).map (fun r => r.index)
    refine (hperm.nodup_iff).mpr ?_
    rw [List.map_append, List.nodup_append]
    refine ⟨exactSearch_idx_nodup q segs, ?_, ?_⟩
    · exact (semanticFiltered_idx _ _).nodup
        (semanticSearch_idx_nodup qe segs topK hw)
    · intro i hi1 hi2
      rcases List.mem_map.mp hi2 with ⟨r, hr, rfl⟩
      rcases semanticFiltered_mem _ _ r hr with ⟨_, _, hidx, _⟩
      exact hidx hi1

/-- Witness for C4 at a concrete well-indexed chunk list. -/
theorem hybridSearch_index_nodup_witness :
    wellIndexed [⟨['a'], 0, 0, [1], 0⟩] ∧
    ((hybridSearch [1] ['a'] [⟨['a'], 0, 0, [1], 0⟩] 8).map
      (fun r => r.index)).Nodup :=
  ⟨by decide,
   hybridSearch_index_nodup [1] ['a'] [⟨['a'], 0, 0, [1], 0⟩] 8 (by decide)⟩

-- ---------------------------------------------------------------------------
-- SEARCH_REQUEST line caps
-- ---------------------------------------------------------------------------

/-- C2 (amended): the SEARCH_REQUEST handler's exact-only path returns at
most 15 lines, while the hybrid (embeddings-present) path returns every
exact match plus at most 15 semantic matches — at most
`len(exact) + 15` lines (the exact matches are not capped there). -/
theorem searchTool_line_cap (q : Str) (qe : List ℚ)
    (segs : List EmbeddedSegment) :
    (searchToolLines q qe segs).length ≤
      if segs.any (fun s => 0 < s.embedding.length) then
        (exactSearch q segs).length + 15
      else 15 := by
  unfold searchToolLines searchRequestResults
  by_cases hany : segs.any (fun s => 0 < s.embedding.length) = true
  · rw [if_pos hany, if_pos hany, List.length_map]
    by_cases htrim : trimStr q = []
    · simp [hybridSearch, htrim, jsSort]
    · rw [hybridSearch_eq qe q segs 15 htrim, jsSort_length,
        List.length_append]
      have h1 : (semanticFiltered
          ((exactSearch q segs).map (fun r => r.index))
          (semanticSearch qe segs 15)).length ≤ 15 := by
        refine le_trans (List.length_filterMap_le _ _) ?_
        exact List.length_take_le 15 _
      omega
  · rw [if_neg hany, if_neg hany, List.length_map]
    exact List.length_take_le 15 _

/-- C2 (counterexample): with 16 embedded chunks all containing the query,
the hybrid path of the SEARCH_REQUEST handler returns 16 lines — the
claimed cap of 15 lines fails on the hybrid path, because exact matches
are not truncated there. -/
theorem searchTool_line_cap_counterexample :
    ¬ ((searchToolLines ['a'] [1] ((List.range 16).map
        (fun i => ⟨['a'], 0, 0, [(1 : ℚ)], i⟩))).length ≤ 15) := by
  intro hle
  set segs : List EmbeddedSegment :=
    (List.range 16).map (fun i => ⟨['a'], 0, 0, [(1 : ℚ)], i⟩) with hsegs
  have hany : segs.any (fun s => 0 < s.embedding.length) = true := by decide
  have htrim : ¬ trimStr ['a'] = [] := by decide
  have hexact : (exactSearch ['a'] segs).length = 16 := by decide
  have hexactIdx : (exactSearch ['a'] segs).map (fun r => r.index) =
      List.range 16 := by decide
  have hfil : semanticFiltered ((exactSearch ['a'] segs).map
      (fun r => r.index)) (semanticSearch [1] segs 15) = [] := by
    unfold semanticFiltered
    rw [List.filterMap_eq_nil_iff]
    intro p hp
    have hpmem : p.1 ∈ segs := semanticSearch_mem [1] segs 15 p hp
    have hidx : p.1.index ∈ (exactSearch ['a'] segs).map
        (fun r => r.index) := by
      rw [hexactIdx]
      rw [hsegs] at hpmem
      rcases List.mem_map.mp hpmem with ⟨i, hi, hieq⟩
      rw [← hieq]
      exact hi
    have hcontains : List.contains ((exactSearch ['a'] segs).map
        (fun r => r.index)) p.1.index = true := List.elem_iff.mpr hidx
    have hbool : (!(((exactSearch ['a'] segs).map
        (fun r => r.index)).contains p.1.index) &&
          decide ((3 : ℚ)/10 < p.2)) = false := by
      rw [hcontains]
      rfl
    rw [hbool]
    rfl
  unfold searchToolLines searchRequestResults at hle
  rw [if_pos hany, List.length_map,
    hybridSearch_eq [1] ['a'] segs 15 htrim, jsSort_length,
    List.length_append, hexact, hfil] at hle
  simp at hle

-- ---------------------------------------------------------------------------
-- Segmenter lemmas: block counts and boundary gaps
-- ---------------------------------------------------------------------------

theorem timeBasedLoop_length_le (rest : List EmbeddedSegment)
    (acc : List EmbeddedSegment) (st : ℚ) :
    (timeBasedLoop rest acc st).length ≤
      rest.length + (if acc = [] then 0 else 1) := by
  induction rest generalizing acc st with
  | nil => by_cases h : acc = [] <;> simp [timeBasedLoop, h]
  | cons seg rest ih =>
      by_cases hcut : TARGET_SECS ≤ seg.start - st
      · simp only [timeBasedLoop, if_pos hcut, List.length_cons]
        have h1 := ih [] (seg.start + seg.duration)
        rw [if_pos rfl] at h1
        by_cases h : acc = [] <;> simp [h] <;> omega
      · simp only [timeBasedLoop, if_neg hcut]
        have h1 := ih (acc ++ [seg]) st
        have hne : acc ++ [seg] ≠ [] := by simp
        rw [if_neg hne] at h1
        have h2 : (timeBasedLoop rest (acc ++ [seg]) st).length ≤
            rest.length + 1 := by simpa using h1
        refine le_trans h2 ?_
        by_cases h : acc = [] <;> simp [h]

theorem timeBasedLoop_length_pos (rest : List EmbeddedSegment)
    (acc : List EmbeddedSegment) (st : ℚ) (h : acc ≠ [] ∨ rest ≠ []) :
    1 ≤ (timeBasedLoop rest acc st).length := by
  induction rest generalizing acc st with
  | nil =>
      rcases h with h | h
      · simp [timeBasedLoop, h]
      · exact absurd rfl h
  | cons seg rest ih =>
      by_cases hcut : TARGET_SECS ≤ seg.start - st
      · simp [timeBasedLoop, hcut]
      · simp only [timeBasedLoop, if_neg hcut]
        exact ih (acc ++ [seg]) st (Or.inl (by simp))

theorem timeBasedGrouping_length_le (segs : List EmbeddedSegment) :
    (timeBasedGrouping segs).length ≤ segs.length := by
  cases segs with
  | nil => simp [timeBasedGrouping]
  | cons s0 rest =>
      have h := timeBasedLoop_length_le (s0 :: rest) [] s0.start
      rw [if_pos rfl] at h
      simpa [timeBasedGrouping] using h

theorem timeBasedGrouping_length_pos (segs : List EmbeddedSegment)
    (h : segs ≠ []) : 1 ≤ (timeBasedGrouping segs).length := by
  cases segs with
  | nil => exact absurd rfl h
  | cons s0 rest =>
      exact timeBasedLoop_length_pos (s0 :: rest) [] s0.start
        (Or.inr (by simp))

theorem pickLoop_length (segs : List EmbeddedSegment) (td : ℚ) (tc : Nat)
    (minima : List (Nat × ℚ)) (chosen : List Nat)
    (h : chosen.length ≤ tc - 1) :
    (pickLoop segs td tc minima chosen).length ≤ tc - 1 := by
  induction minima generalizing chosen with
  | nil => simpa [pickLoop] using h
  | cons m rest ih =>
      by_cases hstop : tc - 1 ≤ chosen.length
      · simpa [pickLoop, hstop] using h
      · simp only [pickLoop, if_neg hstop]
        by_cases h1 : segStart segs m.1 < MIN_SECS
        · rw [if_pos h1]
          exact ih chosen h
        · rw [if_neg h1]
          by_cases h2 : td - segStart segs m.1 < MIN_SECS
          · rw [if_pos h2]
            exact ih chosen h
          · rw [if_neg h2]
            by_cases h3 : (chosen.any fun c =>
                |segStart segs c - segStart segs m.1| < MIN_SECS) = true
            · rw [if_pos h3]
              exact ih chosen h
            · rw [if_neg h3]
              refine ih (chosen ++ [m.1]) ?_
              rw [List.length_append, List.length_singleton]
              omega

theorem pickLoop_good (segs : List EmbeddedSegment) (td : ℚ) (tc : Nat)
    (minima : List (Nat × ℚ)) (chosen : List Nat)
    (hmem : ∀ b ∈ chosen,
      MIN_SECS ≤ segStart segs b ∧ MIN_SECS ≤ td - segStart segs b)
    (hgap : chosen.Pairwise
      (fun b b' => MIN_SECS ≤ |segStart segs b - segStart segs b'|)) :
    (∀ b ∈ pickLoop segs td tc minima chosen,
      MIN_SECS ≤ segStart segs b ∧ MIN_SECS ≤ td - segStart segs b) ∧
    (pickLoop segs td tc minima chosen).Pairwise
      (fun b b' => MIN_SECS ≤ |segStart segs b - segStart segs b'|) := by
  induction minima generalizing chosen with
  | nil => exact ⟨by simpa [pickLoop] using hmem, by simpa [pickLoop] using hgap⟩
  | cons m rest ih =>
      by_cases hstop : tc - 1 ≤ chosen.length
      · simp only [pickLoop, if_pos hstop]
        exact ⟨hmem, hgap⟩
      · simp only [pickLoop, if_neg hstop]
        by_cases h1 : segStart segs m.1 < MIN_SECS
        · rw [if_pos h1]
          exact ih chosen hmem hgap
        · rw [if_neg h1]
          by_cases h2 : td - segStart segs m.1 < MIN_SECS
          · rw [if_pos h2]
            exact ih chosen hmem hgap
          · rw [if_neg h2]
            by_cases h3 : (chosen.any fun c =>
                |segStart segs c - segStart segs m.1| < MIN_SECS) = true
            · rw [if_pos h3]
              exact ih chosen hmem hgap
            · rw [if_neg h3]
              refine ih (chosen ++ [m.1]) ?_ ?_
              · intro b hb
                rcases List.mem_append.mp hb with hb | hb
                · exact hmem b hb
                · rcases List.mem_singleton.mp hb with rfl
                  exact ⟨le_of_not_lt h1, le_of_not_lt h2⟩
              · rw [List.pairwise_append]
                refine ⟨hgap, List.pairwise_singleton _ _, ?_⟩
                intro b hb b' hb'
                have hb'' : b' = m.1 := List.mem_singleton.mp hb'
                subst hb''
                have hall : ∀ c ∈ chosen,
                    ¬ (|segStart segs c - segStart segs m.1| < MIN_SECS) := by
                  intro c hc hlt
                  exact h3 (List.any_eq_true.mpr ⟨c, hc, by simpa using hlt⟩)
                exact le_of_not_lt (hall b hb)

theorem chosenBoundaries_length (segs : List EmbeddedSegment) :
    (chosenBoundaries segs).length ≤ targetCount segs - 1 := by
  unfold chosenBoundaries
  rw [jsSort_length]
  exact pickLoop_length segs (totalDur segs) (targetCount segs) _ []
    (by simp)

theorem chosenBoundaries_good (segs : List EmbeddedSegment) :
    (∀ b ∈ chosenBoundaries segs,
      MIN_SECS ≤ segStart segs b ∧
        MIN_SECS ≤ totalDur segs - segStart segs b) ∧
    (chosenBoundaries segs).Pairwise
      (fun b b' => MIN_SECS ≤ |segStart segs b - segStart segs b'|) := by
  have hpick := pickLoop_good segs (totalDur segs) (targetCount segs)
    (jsSort scoreAscLe (localMinima (simScores segs))) []
    (by simp) (by simp)
  constructor
  · intro b hb
    have hb' := (mem_jsSort (fun a b => decide (a ≤ b)) b _).mp hb
    exact hpick.1 b hb'
  · have hsymm : ∀ {x y : Nat},
        MIN_SECS ≤ |segStart segs x - segStart segs y| →
        MIN_SECS ≤ |segStart segs y - segStart segs x| := by
      intro x y h
      rwa [abs_sub_comm]
    exact ((jsSort_perm (fun a b => decide (a ≤ b))
      (pickLoop segs (totalDur segs) (targetCount segs)
        (jsSort scoreAscLe (localMinima (simScores segs))) [])).pairwise_iff
      hsymm).mpr hpick.2

theorem targetCount_le (segs : List EmbeddedSegment) :
    targetCount segs ≤ 25 := by
  unfold targetCount MAX_BLOCKS
  exact min_le_left _ _

theorem cutBlocks_length (segs : List EmbeddedSegment) (chosen : List Nat) :
    (cutBlocks segs chosen).length = chosen.length + 1 := by
  unfold cutBlocks
  rw [List.length_map, List.length_zip]
  simp [Nat.min_def]

/-- C8: in the semantic segmentation, any two accepted topic boundaries
are at least `MIN_SECS = 90` seconds apart in timestamp, and every
accepted boundary lies at least 90 seconds after the video start (time 0)
and at least 90 seconds before the video end (`totalDur`). -/
theorem semantic_boundary_floor (segs : List EmbeddedSegment) :
    (∀ b ∈ chosenBoundaries segs,
      MIN_SECS ≤ segStart segs b ∧
        segStart segs b + MIN_SECS ≤ totalDur segs) ∧
    (chosenBoundaries segs).Pairwise
      (fun b b' => MIN_SECS ≤ |segStart segs b - segStart segs b'|) := by
  obtain ⟨hmem, hgap⟩ := chosenBoundaries_good segs
  refine ⟨?_, hgap⟩
  intro b hb
  obtain ⟨h1, h2⟩ := hmem b hb
  exact ⟨h1, by linarith⟩

/-- Witness for C8 at a concrete chunk list. -/
theorem semantic_boundary_floor_witness :
    (∀ b ∈ chosenBoundaries [⟨['a'], 0, 1, [1], 0⟩],
      MIN_SECS ≤ segStart [⟨['a'], 0, 1, [1], 0⟩] b ∧
        segStart [⟨['a'], 0, 1, [1], 0⟩] b + MIN_SECS ≤
          totalDur [⟨['a'], 0, 1, [1], 0⟩]) ∧
    (chosenBoundaries [⟨['a'], 0, 1, [1], 0⟩]).Pairwise
      (fun b b' => MIN_SECS ≤
        |segStart [⟨['a'], 0, 1, [1], 0⟩] b -
          segStart [⟨['a'], 0, 1, [1], 0⟩] b'|) :=
  semantic_boundary_floor [⟨['a'], 0, 1, [1], 0⟩]

/-- C1 (amended): for every non-empty chunk list the segmentation returns
at least 1 block (not 2 as claimed), and when chunk embeddings are present
(the semantic path) it returns at most `MAX_BLOCKS = 25` blocks; the
time-based fallback has no 25-block cap. -/
theorem groupIntoBlocks_count_amended (segs : List EmbeddedSegment)
    (h : segs ≠ []) :
    1 ≤ (groupIntoBlocks segs).1.length ∧
    (0 < (segs.headD defaultSeg).embedding.length →
      (groupIntoBlocks segs).1.length ≤ 25) := by
  cases segs with
  | nil => exact absurd rfl h
  | cons s0 rest =>
      by_cases hemb : 0 < s0.embedding.length
      · have hgroup : (groupIntoBlocks (s0 :: rest)).1 =
            semanticGrouping (s0 :: rest) := by
          simp [groupIntoBlocks, hemb]
        rw [hgroup]
        unfold semanticGrouping
        by_cases hsmall : (s0 :: rest).length < WINDOW * 2 + 2
        · rw [if_pos hsmall]
          refine ⟨timeBasedGrouping_length_pos (s0 :: rest) (by simp),
            fun _ => ?_⟩
          refine le_trans (timeBasedGrouping_length_le _) ?_
          unfold WINDOW at hsmall
          omega
        · rw [if_neg hsmall]
          rw [cutBlocks_length]
          refine ⟨by omega, fun _ => ?_⟩
          have h1 := chosenBoundaries_length (s0 :: rest)
          have h2 := targetCount_le (s0 :: rest)
          omega
      · have hgroup : (groupIntoBlocks (s0 :: rest)).1 =
            timeBasedGrouping (s0 :: rest) := by
          simp [groupIntoBlocks, hemb]
        rw [hgroup]
        refine ⟨timeBasedGrouping_length_pos (s0 :: rest) (by simp),
          fun hc => ?_⟩
        exact absurd hc (by simpa using hemb)

/-- Witness for C1 (amended) at a concrete one-chunk list with an
embedding. -/
theorem groupIntoBlocks_count_amended_witness :
    ([(⟨['a'], 0, 1, [1], 0⟩ : EmbeddedSegment)] ≠ []) ∧
    (1 ≤ (groupIntoBlocks [⟨['a'], 0, 1, [1], 0⟩]).1.length ∧
    (0 < ([(⟨['a'], 0, 1, [1], 0⟩ : EmbeddedSegment)].headD
        defaultSeg).embedding.length →
      (groupIntoBlocks [⟨['a'], 0, 1, [1], 0⟩]).1.length ≤ 25)) :=
  ⟨by simp, groupIntoBlocks_count_amended [⟨['a'], 0, 1, [1], 0⟩] (by simp)⟩

/-- C1 (counterexample): a single chunk without embeddings is grouped into
exactly one block, violating the claimed lower bound of 2 blocks. -/
theorem groupIntoBlocks_count_counterexample :
    ¬ (2 ≤ (groupIntoBlocks [⟨['a'], 0, 1, [], 0⟩]).1.length) := by
  intro hc
  have h1 : (groupIntoBlocks [⟨['a'], 0, 1, [], 0⟩]).1.length = 1 := by
    norm_num [groupIntoBlocks, timeBasedGrouping, timeBasedLoop, TARGET_SECS,
      blockEnd]
  omega
